import Mathlib

/-!
# Verification of the SkateHubba real-time gateway (socket room manager)

Shallow embedding of `src/server/socket/rooms.ts`: the room registry
(join / leave / leaveAll / sweep / stats), the room-key codec
(`getRoomId` / `parseRoomId`), the connection rate limiter
(`checkRateLimit` / `cleanupRateLimits`) and the socket authentication
middleware (`socketAuthMiddleware`).

Room keys and ids are modelled as `List Char` (JavaScript strings),
JS `Map`s as association lists with replace-in-place `set`, JS `Set`s of
subject ids as `Finset String`, and the session's room-key set as a
`List (List Char)` with JS `Set` add/delete semantics (insertion order,
no duplicates).  Timestamps are `Nat` milliseconds passed explicitly.
-/

namespace SkateHubba

/-- The `RoomType` union from `src/server/socket/types.ts`:
`"battle" | "game" | "spot" | "global"`. -/
inductive RoomType where
  | battle
  | game
  | spot
  | global
deriving DecidableEq, Repr

/-- A room key or id: a JavaScript string, as a list of characters. -/
abbrev Key := List Char

/-- The literal string of a `RoomType`. -/
def typeChars : RoomType → Key
  | .battle => "battle".toList
  | .game => "game".toList
  | .spot => "spot".toList
  | .global => "global".toList

/-- JS `roomId.split(":")`: always returns a non-empty list of
(possibly empty) colon-free segments. -/
def splitOnColon : Key → List Key
  | [] => [[]]
  | c :: cs =>
    if c = ':' then [] :: splitOnColon cs
    else
      match splitOnColon cs with
      | [] => [[c]]
      | h :: t => (c :: h) :: t

/-- JS `rest.join(":")` on a list of segments. -/
def joinColon : List Key → Key
  | [] => []
  | [x] => x
  | x :: xs => x ++ ':' :: joinColon xs

/-- The key built from raw type and id segments: `` `${type}:${id}` ``.
At runtime the type segment is just a string (the TypeScript `RoomType`
annotation is erased), so this is the shared core of `getRoomId` and of
the key reconstruction inside `leaveAllRooms`. -/
def keyOf (t i : Key) : Key := t ++ ':' :: i

/-- `getRoomId(type, id)` from `rooms.ts`: `` `${type}:${id}` ``. -/
def getRoomId (ty : RoomType) (id : Key) : Key := keyOf (typeChars ty) id

/-- `parseRoomId(roomId)` from `rooms.ts`:
`const [type, ...rest] = roomId.split(":"); const id = rest.join(":");
if (!type || !id) return null; return { type, id }`.
The result's first component is the raw type segment (the source casts it
to `RoomType` without checking). -/
def parseRoomId (roomId : Key) : Option (Key × Key) :=
  match splitOnColon roomId with
  | [] => none
  | t :: rest =>
    let i := joinColon rest
    if t = [] ∨ i = [] then none else some (t, i)

/-- `ROOM_LIMITS` from `rooms.ts`; `none` models `Infinity`. -/
def ROOM_LIMITS : RoomType → Option Nat
  | .battle => some 2
  | .game => some 8
  | .spot => some 100
  | .global => none

/-- The capacity test `room.members.size >= ROOM_LIMITS[type]`
(always false against `Infinity`). -/
def atCapacity (sz : Nat) (ty : RoomType) : Bool :=
  match ROOM_LIMITS ty with
  | none => false
  | some c => sz ≥ c

/-- `RoomInfo` from `types.ts`: room type, id, member set of subject
ids (`odv` strings), creation timestamp. -/
structure RoomInfo where
  type : RoomType
  id : Key
  members : Finset String
  createdAt : Nat
deriving DecidableEq

/-- The module-level `rooms` map: an association list keyed by room key,
with JS `Map` replace-in-place `set` semantics. -/
abbrev Registry := List (Key × RoomInfo)

/-- `Map.get`. -/
def mapFind {α β : Type} [DecidableEq α] : List (α × β) → α → Option β
  | [], _ => none
  | (k, v) :: rest, a => if k = a then some v else mapFind rest a

/-- `Map.set`: replace the binding in place if present, else append. -/
def mapSet {α β : Type} [DecidableEq α] : List (α × β) → α → β → List (α × β)
  | [], a, b => [(a, b)]
  | (k, v) :: rest, a, b =>
    if k = a then (a, b) :: rest else (k, v) :: mapSet rest a b

/-- Per-connection `SocketData` as far as the room manager reads it:
the subject id `odv` and the set of joined room keys (a JS `Set`,
modelled as an insertion-ordered duplicate-free list). -/
structure Session where
  odv : String
  rooms : List Key
deriving DecidableEq

/-- JS `Set.add` on the session's room-key set. -/
def sessAdd (l : List Key) (k : Key) : List Key :=
  if k ∈ l then l else l ++ [k]

/-- JS `Set.delete` on the session's room-key set. -/
def sessDel (l : List Key) (k : Key) : List Key := l.erase k

/-- `getOrCreateRoom(type, id)`: look up the room, lazily inserting a
fresh empty room into the registry when absent.  Returns the room and
the (possibly extended) registry. -/
def getOrCreateRoom (st : Registry) (ty : RoomType) (id : Key) (now : Nat) :
    RoomInfo × Registry :=
  let roomId := getRoomId ty id
  match mapFind st roomId with
  | some room => (room, st)
  | none =>
    let room : RoomInfo := ⟨ty, id, ∅, now⟩
    (room, mapSet st roomId room)

/-- `joinRoom(socket, type, id)`: get-or-create the room, reject with
`false` when `room.members.size >= ROOM_LIMITS[type]`, otherwise add the
subject to the room's member set and the key to the session's room set
and return `true`. -/
def joinRoom (st : Registry) (sess : Session) (ty : RoomType) (id : Key)
    (now : Nat) : Bool × Registry × Session :=
  let roomId := getRoomId ty id
  let (room, st1) := getOrCreateRoom st ty id now
  if atCapacity room.members.card ty then
    (false, st1, sess)
  else
    let room' := { room with members := insert sess.odv room.members }
    (true, mapSet st1 roomId room', { sess with rooms := sessAdd sess.rooms roomId })

/-- `leaveRoom` on raw key segments (the runtime behaviour: the type
segment is an unchecked string).  Removes the subject from the room's
member set when the room exists, and always removes the key from the
session's room set.  Never deletes the room. -/
def leaveRoomK (st : Registry) (sess : Session) (t i : Key) :
    Registry × Session :=
  let roomId := keyOf t i
  let st' :=
    match mapFind st roomId with
    | some room => mapSet st roomId { room with members := room.members.erase sess.odv }
    | none => st
  (st', { sess with rooms := sessDel sess.rooms roomId })

/-- `leaveRoom(socket, type, id)` from `rooms.ts`. -/
def leaveRoom (st : Registry) (sess : Session) (ty : RoomType) (id : Key) :
    Registry × Session :=
  leaveRoomK st sess (typeChars ty) id

/-- The loop body of `leaveAllRooms`: for each snapshot key, parse it and
leave the parsed room; keys that fail to parse are skipped. -/
def leaveAllGo (st : Registry) (sess : Session) : List Key → Registry × Session
  | [] => (st, sess)
  | k :: ks =>
    match parseRoomId k with
    | some (t, i) =>
      let (st', sess') := leaveRoomK st sess t i
      leaveAllGo st' sess' ks
    | none => leaveAllGo st sess ks

/-- `leaveAllRooms(socket)`: iterate the session's room-key set. -/
def leaveAllRooms (st : Registry) (sess : Session) : Registry × Session :=
  leaveAllGo st sess sess.rooms

/-- `cleanupEmptyRooms()`: delete every room whose member set is empty. -/
def cleanupEmptyRooms : Registry → Registry
  | [] => []
  | (k, r) :: rest =>
    if r.members.card = 0 then cleanupEmptyRooms rest
    else (k, r) :: cleanupEmptyRooms rest

/-- `getRoomStats`'s `byType` record: `Record<RoomType, number>` with all
counters starting at `0`. -/
structure ByType where
  battle : Nat
  game : Nat
  spot : Nat
  global : Nat
deriving DecidableEq, Repr

/-- Read one counter of the `byType` record. -/
def ByType.get (b : ByType) : RoomType → Nat
  | .battle => b.battle
  | .game => b.game
  | .spot => b.spot
  | .global => b.global

/-- `byType[room.type]++`. -/
def ByType.bump (b : ByType) : RoomType → ByType
  | .battle => { b with battle := b.battle + 1 }
  | .game => { b with game := b.game + 1 }
  | .spot => { b with spot := b.spot + 1 }
  | .global => { b with global := b.global + 1 }

/-- The return shape of `getRoomStats`. -/
structure RoomStats where
  totalRooms : Nat
  totalMembers : Nat
  byType : ByType
deriving DecidableEq, Repr

/-- The `for (const room of rooms.values())` loop of `getRoomStats`,
threading the `byType` counters and `totalMembers` accumulator. -/
def statsLoop : Registry → ByType → Nat → ByType × Nat
  | [], b, m => (b, m)
  | (_, r) :: rest, b, m => statsLoop rest (b.bump r.type) (m + r.members.card)

/-- `getRoomStats()`: a read-only snapshot of the registry (it takes the
registry and returns only the stats record, never a new registry). -/
def getRoomStats (st : Registry) : RoomStats :=
  let acc := statsLoop st ⟨0, 0, 0, 0⟩ 0
  { totalRooms := st.length, totalMembers := acc.2, byType := acc.1 }

/-!
## Rate limiter (`checkRateLimit`, `cleanupRateLimits`)
-/

/-- One entry of the `connectionAttempts` map. -/
structure RLEntry where
  count : Nat
  resetAt : Nat
deriving DecidableEq, Repr

/-- The module-level `connectionAttempts` map, keyed by IP string. -/
abbrev RLState := List (String × RLEntry)

/-- `MAX_CONNECTIONS_PER_MINUTE = 10`. -/
def MAX_CONNECTIONS_PER_MINUTE : Nat := 10

/-- `RATE_LIMIT_WINDOW_MS = 60 * 1000`. -/
def RATE_LIMIT_WINDOW_MS : Nat := 60 * 1000

/-- `checkRateLimit(ip)`: fresh or expired entry resets to
`{count: 1, resetAt: now + window}` and allows; at or above the ceiling,
deny leaving the map untouched; otherwise increment and allow. -/
def checkRateLimit (st : RLState) (ip : String) (now : Nat) : Bool × RLState :=
  match mapFind st ip with
  | none => (true, mapSet st ip ⟨1, now + RATE_LIMIT_WINDOW_MS⟩)
  | some existing =>
    if now > existing.resetAt then
      (true, mapSet st ip ⟨1, now + RATE_LIMIT_WINDOW_MS⟩)
    else if existing.count ≥ MAX_CONNECTIONS_PER_MINUTE then
      (false, st)
    else
      (true, mapSet st ip ⟨existing.count + 1, existing.resetAt⟩)

/-- `cleanupRateLimits()`: delete every entry with `now > resetAt`. -/
def cleanupRateLimits (st : RLState) (now : Nat) : RLState :=
  st.filter fun p => !(now > p.2.resetAt)

/-- One admission-time operation on the rate limiter: a `checkRateLimit`
call or a periodic sweep, each at some wall-clock time. -/
inductive RLOp where
  | check (ip : String) (now : Nat)
  | cleanup (now : Nat)

/-- Run a sequence of rate-limiter operations from a state. -/
def runRL (st : RLState) : List RLOp → RLState
  | [] => st
  | .check ip now :: ops => runRL (checkRateLimit st ip now).2 ops
  | .cleanup now :: ops => runRL (cleanupRateLimits st now) ops

/-!
## Authentication middleware (`socketAuthMiddleware`)
-/

/-- A raw JS value in `handshake.auth.token`: a string or something of
another type (the middleware requires `typeof token === "string"`). -/
inductive AuthValue where
  | str (s : String)
  | nonStr
deriving DecidableEq

/-- The `handshake.auth` object, whose `token` field may be absent. -/
structure AuthPayload where
  token : Option AuthValue
deriving DecidableEq

/-- The connection handshake: source address and optional auth object. -/
structure Handshake where
  address : String
  auth : Option AuthPayload
deriving DecidableEq

/-- The decoded Firebase ID token consumed as a capability:
subject uid and the `admin` custom claim. -/
structure Decoded where
  uid : String
  admin : Bool
deriving DecidableEq

/-- The application user record returned by
`AuthService.findUserByFirebaseUid`. -/
structure UserRecord where
  id : String
  isActive : Bool
deriving DecidableEq

/-- The full per-connection `SocketData` constructed on success. -/
structure SocketData where
  userId : String
  odv : String
  firebaseUid : String
  roles : List String
  connectedAt : Nat
  rooms : List Key
deriving DecidableEq

/-- Outcome of the middleware: `next()` with a populated session, or
`next(new Error(code))` with a coarse error code. -/
inductive AuthResult where
  | ok (data : SocketData)
  | err (code : String)
deriving DecidableEq

/-- `socketAuthMiddleware(socket, next)`, parameterised by the external
capabilities `verify` (Firebase `verifyIdToken`; `none` = throws) and
`findUser` (`AuthService.findUserByFirebaseUid`).  Returns the outcome
together with the updated rate-limiter state. -/
def socketAuthMiddleware (rl : RLState) (now : Nat)
    (verify : String → Option Decoded)
    (findUser : String → Option UserRecord)
    (hs : Handshake) : AuthResult × RLState :=
  let res := checkRateLimit rl hs.address now
  let rl' := res.2
  if !res.1 then (.err "rate_limit_exceeded", rl')
  else
    let token := hs.auth.bind fun a => a.token
    match token with
    | none => (.err "authentication_required", rl')
    | some .nonStr => (.err "authentication_required", rl')
    | some (.str t) =>
      if t = "" then (.err "authentication_required", rl')
      else
        match verify t with
        | none => (.err "invalid_token", rl')
        | some decoded =>
          match findUser decoded.uid with
          | none => (.err "user_not_found", rl')
          | some user =>
            if !user.isActive then (.err "account_inactive", rl')
            else
              let roles : List String := if decoded.admin then ["admin"] else []
              (.ok { userId := user.id, odv := user.id,
                     firebaseUid := decoded.uid, roles := roles,
                     connectedAt := now, rooms := [] }, rl')

/-!
## Reachable registry states

Closure of the empty registry under the room-manager operations
(join, leave, leaveAll, sweep), with arbitrary sessions, ids and times
at each step.
-/

/-- Registry states reachable from the empty registry by any sequence of
`joinRoom` / `leaveRoom` / `leaveAllRooms` / `cleanupEmptyRooms` calls. -/
inductive Reach : Registry → Prop where
  | empty : Reach []
  | join (st : Registry) (sess : Session) (ty : RoomType) (id : Key)
      (now : Nat) : Reach st → Reach (joinRoom st sess ty id now).2.1
  | leave (st : Registry) (sess : Session) (ty : RoomType) (id : Key) :
      Reach st → Reach (leaveRoom st sess ty id).1
  | leaveAll (st : Registry) (sess : Session) :
      Reach st → Reach (leaveAllRooms st sess).1
  | sweep (st : Registry) : Reach st → Reach (cleanupEmptyRooms st)

/-- The per-room size bound: `|members| ≤ capacity(type)`, vacuous for
the unbounded `global` type. -/
def sizeOk (r : RoomInfo) : Prop :=
  match ROOM_LIMITS r.type with
  | none => True
  | some c => r.members.card ≤ c

instance (r : RoomInfo) : Decidable (sizeOk r) := by
  unfold sizeOk
  exact match ROOM_LIMITS r.type with
  | none => inferInstanceAs (Decidable True)
  | some c => inferInstanceAs (Decidable (_ ≤ _))

/-- Member count of the room stored at a key (`0` when absent). -/
def memCard (st : Registry) (k : Key) : Nat :=
  match mapFind st k with
  | some r => r.members.card
  | none => 0

/-!
## Lemmas about the key codec
-/

theorem splitOnColon_ne_nil (s : Key) : splitOnColon s ≠ [] := by
  induction s with
  | nil => simp [splitOnColon]
  | cons c cs ih =>
    simp only [splitOnColon]
    split
    · simp
    · match h : splitOnColon cs with
      | [] => simp
      | a :: t => simp

theorem joinColon_cons (x : Key) (l : List Key) (hl : l ≠ []) :
    joinColon (x :: l) = x ++ ':' :: joinColon l := by
  match l with
  | [] => exact absurd rfl hl
  | y :: t => rfl

theorem joinColon_splitOnColon (s : Key) : joinColon (splitOnColon s) = s := by
  induction s with
  | nil => rfl
  | cons c cs ih =>
    simp only [splitOnColon]
    by_cases hc : c = ':'
    · rw [if_pos hc, joinColon_cons _ _ (splitOnColon_ne_nil cs), ih, hc]
      rfl
    · rw [if_neg hc]
      match h : splitOnColon cs with
      | [] => exact absurd h (splitOnColon_ne_nil cs)
      | a :: t =>
        rw [h] at ih
        have : joinColon ((c :: a) :: t) = c :: joinColon (a :: t) := by
          match t with
          | [] => rfl
          | b :: t' => rfl
        rw [this, ih]

theorem splitOnColon_append (t i : Key) (ht : ':' ∉ t) :
    splitOnColon (t ++ ':' :: i) = t :: splitOnColon i := by
  induction t with
  | nil => simp [splitOnColon]
  | cons c t' ih =>
    have hc : c ≠ ':' := fun h => ht (h ▸ List.mem_cons_self c t')
    have ht' : ':' ∉ t' := fun h => ht (List.mem_cons_of_mem c h)
    rw [List.cons_append]
    simp only [splitOnColon, if_neg hc]
    rw [ih ht']

theorem splitOnColon_no_colon (s : Key) (hs : ':' ∉ s) : splitOnColon s = [s] := by
  induction s with
  | nil => rfl
  | cons c cs ih =>
    have hc : c ≠ ':' := fun h => hs (h ▸ List.mem_cons_self c cs)
    have hcs : ':' ∉ cs := fun h => hs (List.mem_cons_of_mem c h)
    simp only [splitOnColon, if_neg hc, ih hcs]

theorem parseRoomId_keyOf (t i : Key) (ht : ':' ∉ t) (ht0 : t ≠ []) (hi : i ≠ []) :
    parseRoomId (keyOf t i) = some (t, i) := by
  unfold parseRoomId keyOf
  rw [splitOnColon_append t i ht]
  simp only [joinColon_splitOnColon]
  rw [if_neg (by simp [ht0, hi])]

theorem parseRoomId_some (s t i : Key) (h : parseRoomId s = some (t, i)) :
    t ≠ [] ∧ i ≠ [] := by
  unfold parseRoomId at h
  match hs : splitOnColon s with
  | [] => rw [hs] at h; exact absurd h (by simp)
  | t0 :: rest =>
    rw [hs] at h
    simp only at h
    by_cases hc : t0 = [] ∨ joinColon rest = []
    · rw [if_pos hc] at h; exact absurd h (by simp)
    · rw [if_neg hc] at h
      push_neg at hc
      obtain ⟨h1, h2⟩ := Prod.mk.injEq .. ▸ Option.some.injEq .. ▸ h
      exact ⟨h1 ▸ hc.1, h2 ▸ hc.2⟩

theorem parseRoomId_reconstruct (s t i : Key) (h : parseRoomId s = some (t, i)) :
    keyOf t i = s := by
  unfold parseRoomId at h
  match hs : splitOnColon s with
  | [] => rw [hs] at h; exact absurd h (by simp)
  | t0 :: rest =>
    rw [hs] at h
    simp only at h
    by_cases hc : t0 = [] ∨ joinColon rest = []
    · rw [if_pos hc] at h; exact absurd h (by simp)
    · rw [if_neg hc] at h
      push_neg at hc
      obtain ⟨h1, h2⟩ := Prod.mk.injEq .. ▸ Option.some.injEq .. ▸ h
      subst h1; subst h2
      have hrest : rest ≠ [] := by
        intro hr
        exact hc.2 (by rw [hr]; rfl)
      have := joinColon_splitOnColon s
      rw [hs, joinColon_cons _ _ hrest] at this
      exact this

theorem typeChars_ne_nil (ty : RoomType) : typeChars ty ≠ [] := by
  cases ty <;> decide

theorem colon_not_mem_typeChars (ty : RoomType) : ':' ∉ typeChars ty := by
  cases ty <;> decide

theorem typeChars_inj (ty ty' : RoomType) (h : typeChars ty = typeChars ty') :
    ty = ty' := by
  cases ty <;> cases ty' <;> first | rfl | exact absurd h (by decide)

theorem getRoomId_inj (ty ty' : RoomType) (i i' : Key)
    (h : getRoomId ty i = getRoomId ty' i') : ty = ty' ∧ i = i' := by
  unfold getRoomId keyOf at h
  have hsplit := congrArg splitOnColon h
  rw [splitOnColon_append _ _ (colon_not_mem_typeChars ty),
      splitOnColon_append _ _ (colon_not_mem_typeChars ty')] at hsplit
  obtain ⟨h1, h2⟩ := List.cons.injEq .. ▸ hsplit
  refine ⟨typeChars_inj _ _ h1, ?_⟩
  have := congrArg joinColon h2
  rwa [joinColon_splitOnColon, joinColon_splitOnColon] at this

/-- C5: `getRoomId` then `parseRoomId` round-trips for every room type and
non-empty id; a key with no separator, an empty type segment, or an empty
id segment parses to `none`; and a successful parse always populates both
segments (never a partial result). -/
theorem roomKey_roundtrip_and_malformed :
    (∀ (ty : RoomType) (i : Key), i ≠ [] →
      parseRoomId (getRoomId ty i) = some (typeChars ty, i)) ∧
    (∀ s : Key, ':' ∉ s → parseRoomId s = none) ∧
    (∀ i : Key, parseRoomId (':' :: i) = none) ∧
    (∀ t : Key, ':' ∉ t → parseRoomId (t ++ [':']) = none) ∧
    (∀ s t i : Key, parseRoomId s = some (t, i) → t ≠ [] ∧ i ≠ []) := by
  refine ⟨?_, ?_, ?_, ?_, ?_⟩
  · intro ty i hi
    exact parseRoomId_keyOf _ _ (colon_not_mem_typeChars ty) (typeChars_ne_nil ty) hi
  · intro s hs
    unfold parseRoomId
    rw [splitOnColon_no_colon s hs]
    simp [joinColon]
  · intro i
    unfold parseRoomId
    have : (':' :: i) = [] ++ ':' :: i := rfl
    rw [this, splitOnColon_append [] i (by simp)]
    simp
  · intro t ht
    unfold parseRoomId
    have : (t ++ [':']) = t ++ ':' :: [] := rfl
    rw [this, splitOnColon_append t [] ht]
    simp [splitOnColon, joinColon]
  · exact parseRoomId_some

/-- Witness for C5 at concrete keys. -/
theorem roomKey_roundtrip_and_malformed_check :
    parseRoomId (getRoomId .battle "x".toList) = some ("battle".toList, "x".toList) ∧
    parseRoomId "abc".toList = none ∧
    parseRoomId (':' :: "ab".toList) = none ∧
    parseRoomId ("ab".toList ++ [':']) = none ∧
    ("battle".toList ≠ [] ∧ "x".toList ≠ []) :=
  ⟨roomKey_roundtrip_and_malformed.1 .battle "x".toList (by decide),
   roomKey_roundtrip_and_malformed.2.1 "abc".toList (by decide),
   roomKey_roundtrip_and_malformed.2.2.1 "ab".toList,
   roomKey_roundtrip_and_malformed.2.2.2.1 "ab".toList (by decide),
   roomKey_roundtrip_and_malformed.2.2.2.2 "battle:x".toList "battle".toList
     "x".toList (by decide)⟩

/-- C9: `parseRoomId` never checks the type segment against the
`RoomType` enumeration: any key whose first colon-delimited segment and
remainder are both non-empty parses to a populated result, including
type segments (such as `"foo"`) that are none of battle/game/spot/global. -/
theorem parseRoomId_accepts_unknown_type :
    (∀ t i : Key, ':' ∉ t → t ≠ [] → i ≠ [] →
      parseRoomId (keyOf t i) = some (t, i)) ∧
    parseRoomId "foo:bar".toList = some ("foo".toList, "bar".toList) ∧
    (∀ ty : RoomType, typeChars ty ≠ "foo".toList) := by
  refine ⟨parseRoomId_keyOf, ?_, ?_⟩
  · decide
  · intro ty; cases ty <;> decide

/-- Witness for C9 at a concrete non-enumerated type segment. -/
theorem parseRoomId_accepts_unknown_type_check :
    parseRoomId (keyOf "foo".toList "bar".toList) =
      some ("foo".toList, "bar".toList) :=
  parseRoomId_accepts_unknown_type.1 "foo".toList "bar".toList
    (by decide) (by decide) (by decide)

/-!
## Lemmas about the association-list map model
-/

theorem mapFind_some_mem {α β : Type} [DecidableEq α] (st : List (α × β))
    (a : α) (b : β) (h : mapFind st a = some b) : (a, b) ∈ st := by
  induction st with
  | nil => exact absurd h (by simp [mapFind])
  | cons p rest ih =>
    obtain ⟨k, v⟩ := p
    by_cases hk : k = a
    · subst hk
      have hv : v = b := by simpa [mapFind] using h
      subst hv
      exact List.mem_cons_self _ _
    · simp only [mapFind, if_neg hk] at h
      exact List.mem_cons_of_mem _ (ih h)

theorem mem_mapSet {α β : Type} [DecidableEq α] (st : List (α × β))
    (a : α) (v : β) (p : α × β) (h : p ∈ mapSet st a v) :
    p = (a, v) ∨ p ∈ st := by
  induction st with
  | nil => simpa [mapSet] using h
  | cons q rest ih =>
    obtain ⟨k, w⟩ := q
    by_cases hk : k = a
    · subst hk
      simp only [mapSet, if_pos rfl] at h
      rcases List.mem_cons.mp h with h1 | h1
      · exact Or.inl h1
      · exact Or.inr (List.mem_cons_of_mem _ h1)
    · simp only [mapSet, if_neg hk] at h
      rcases List.mem_cons.mp h with h1 | h1
      · exact Or.inr (h1 ▸ List.mem_cons_self _ _)
      · rcases ih h1 with h2 | h2
        · exact Or.inl h2
        · exact Or.inr (List.mem_cons_of_mem _ h2)

theorem mapFind_mapSet_self {α β : Type} [DecidableEq α] (st : List (α × β))
    (a : α) (v : β) : mapFind (mapSet st a v) a = some v := by
  induction st with
  | nil => simp [mapSet, mapFind]
  | cons q rest ih =>
    obtain ⟨k, w⟩ := q
    by_cases hk : k = a
    · subst hk
      simp [mapSet, mapFind]
    · simp [mapSet, mapFind, hk, ih]

theorem mapSet_keys_of_find_some {α β : Type} [DecidableEq α]
    (st : List (α × β)) (a : α) (b v : β) (h : mapFind st a = some b) :
    (mapSet st a v).map Prod.fst = st.map Prod.fst := by
  induction st with
  | nil => exact absurd h (by simp [mapFind])
  | cons q rest ih =>
    obtain ⟨k, w⟩ := q
    by_cases hk : k = a
    · subst hk
      simp [mapSet, mapFind]
    · simp only [mapFind, if_neg hk] at h
      simp [mapSet, if_neg hk, ih h]

theorem mapFind_none_mapSet {α β : Type} [DecidableEq α] (st : List (α × β))
    (a : α) (v : β) (h : mapFind st a = none) :
    mapSet st a v = st ++ [(a, v)] := by
  induction st with
  | nil => rfl
  | cons q rest ih =>
    obtain ⟨k, w⟩ := q
    by_cases hk : k = a
    · subst hk
      simp [mapFind] at h
    · simp only [mapFind, if_neg hk] at h
      simp [mapSet, if_neg hk, ih h]

theorem mem_mapSet_nodup {α β : Type} [DecidableEq α] (st : List (α × β))
    (a : α) (v : β) (p : α × β) (hnd : (st.map Prod.fst).Nodup)
    (h : p ∈ mapSet st a v) : p = (a, v) ∨ (p ∈ st ∧ p.1 ≠ a) := by
  induction st with
  | nil => simpa [mapSet] using h
  | cons q rest ih =>
    obtain ⟨k, w⟩ := q
    simp only [List.map_cons, List.nodup_cons] at hnd
    by_cases hk : k = a
    · subst hk
      simp only [mapSet, if_pos rfl] at h
      rcases List.mem_cons.mp h with h1 | h1
      · exact Or.inl h1
      · refine Or.inr ⟨List.mem_cons_of_mem _ h1, ?_⟩
        intro hpk
        exact hnd.1 (hpk ▸ List.mem_map_of_mem Prod.fst h1)
    · simp only [mapSet, if_neg hk] at h
      rcases List.mem_cons.mp h with h1 | h1
      · subst h1
        exact Or.inr ⟨List.mem_cons_self _ _, hk⟩
      · rcases ih hnd.2 h1 with h2 | h2
        · exact Or.inl h2
        · exact Or.inr ⟨List.mem_cons_of_mem _ h2.1, h2.2⟩

theorem leaveRoomK_keys (st : Registry) (sess : Session) (t i : Key) :
    ((leaveRoomK st sess t i).1).map Prod.fst = st.map Prod.fst := by
  unfold leaveRoomK
  rcases h : mapFind st (keyOf t i) with _ | room
  · simp [h]
  · simp only [h]
    exact mapSet_keys_of_find_some st _ room _ h

theorem leaveAllGo_keys (ks : List Key) (st : Registry) (sess : Session) :
    ((leaveAllGo st sess ks).1).map Prod.fst = st.map Prod.fst := by
  induction ks generalizing st sess with
  | nil => rfl
  | cons k ks ih =>
    simp only [leaveAllGo]
    match hp : parseRoomId k with
    | some (t, i) =>
      simp only
      rw [ih, leaveRoomK_keys]
    | none => exact ih st sess

theorem mem_cleanupEmptyRooms (st : Registry) (k : Key) (r : RoomInfo) :
    (k, r) ∈ cleanupEmptyRooms st ↔ ((k, r) ∈ st ∧ r.members ≠ ∅) := by
  induction st with
  | nil => simp [cleanupEmptyRooms]
  | cons q rest ih =>
    obtain ⟨k0, r0⟩ := q
    by_cases hz : r0.members.card = 0
    · simp only [cleanupEmptyRooms, if_pos hz]
      rw [ih]
      constructor
      · rintro ⟨h1, h2⟩
        exact ⟨List.mem_cons_of_mem _ h1, h2⟩
      · rintro ⟨h1, h2⟩
        rcases List.mem_cons.mp h1 with h3 | h3
        · obtain ⟨hk, hr⟩ := Prod.mk.injEq .. ▸ h3
          exact absurd (hr ▸ Finset.card_eq_zero.mp hz) h2
        · exact ⟨h3, h2⟩
    · simp only [cleanupEmptyRooms, if_neg hz]
      constructor
      · intro h
        rcases List.mem_cons.mp h with h3 | h3
        · obtain ⟨hk, hr⟩ := Prod.mk.injEq .. ▸ h3
          subst hk; subst hr
          exact ⟨List.mem_cons_self _ _, fun he => hz (by simp [he])⟩
        · obtain ⟨h4, h5⟩ := ih.mp h3
          exact ⟨List.mem_cons_of_mem _ h4, h5⟩
      · rintro ⟨h1, h2⟩
        rcases List.mem_cons.mp h1 with h3 | h3
        · exact h3 ▸ List.mem_cons_self _ _
        · exact List.mem_cons_of_mem _ (ih.mpr ⟨h3, h2⟩)

theorem joinRoom_keys_mono (st : Registry) (sess : Session) (ty : RoomType)
    (id : Key) (now : Nat) (k : Key) (hk : k ∈ st.map Prod.fst) :
    k ∈ ((joinRoom st sess ty id now).2.1).map Prod.fst := by
  rcases hf : mapFind st (getRoomId ty id) with _ | room
  · by_cases hc : atCapacity 0 ty
    · have hj : (joinRoom st sess ty id now).2.1
          = mapSet st (getRoomId ty id) ⟨ty, id, ∅, now⟩ := by
        simp [joinRoom, getOrCreateRoom, hf, hc]
      rw [hj, mapFind_none_mapSet st _ _ hf, List.map_append, List.mem_append]
      exact Or.inl hk
    · have hj : (joinRoom st sess ty id now).2.1
          = mapSet (mapSet st (getRoomId ty id) ⟨ty, id, ∅, now⟩)
              (getRoomId ty id) ⟨ty, id, insert sess.odv ∅, now⟩ := by
        simp [joinRoom, getOrCreateRoom, hf, hc]
      rw [hj, mapSet_keys_of_find_some _ _ _ _ (mapFind_mapSet_self st _ _),
          mapFind_none_mapSet st _ _ hf, List.map_append, List.mem_append]
      exact Or.inl hk
  · by_cases hc : atCapacity room.members.card ty
    · have hj : (joinRoom st sess ty id now).2.1 = st := by
        simp [joinRoom, getOrCreateRoom, hf, hc]
      rw [hj]; exact hk
    · have hj : (joinRoom st sess ty id now).2.1
          = mapSet st (getRoomId ty id)
              ⟨room.type, room.id, insert sess.odv room.members, room.createdAt⟩ := by
        simp [joinRoom, getOrCreateRoom, hf, hc]
      rw [hj, mapSet_keys_of_find_some st _ room _ hf]
      exact hk

/-- C8: the sweep deletes exactly the rooms whose member set is empty at
the tick (a room with at least one member is never removed); `leaveRoom`
and `leaveAllRooms` never delete a room, even when they remove the last
member; and `joinRoom` never removes a room, so an empty room stays in
the registry until the next sweep. -/
theorem sweep_deletes_exactly_empty_rooms :
    (∀ (st : Registry) (k : Key) (r : RoomInfo),
      (k, r) ∈ cleanupEmptyRooms st ↔ ((k, r) ∈ st ∧ r.members ≠ ∅)) ∧
    (∀ (st : Registry) (sess : Session) (ty : RoomType) (id : Key),
      ((leaveRoom st sess ty id).1).map Prod.fst = st.map Prod.fst) ∧
    (∀ (st : Registry) (sess : Session),
      ((leaveAllRooms st sess).1).map Prod.fst = st.map Prod.fst) ∧
    (∀ (st : Registry) (sess : Session) (ty : RoomType) (id : Key) (now : Nat)
      (k : Key), k ∈ st.map Prod.fst →
      k ∈ ((joinRoom st sess ty id now).2.1).map Prod.fst) :=
  ⟨mem_cleanupEmptyRooms,
   fun st sess ty id => leaveRoomK_keys st sess (typeChars ty) id,
   fun st sess => leaveAllGo_keys sess.rooms st sess,
   joinRoom_keys_mono⟩

/-- Witness for C8 on a concrete registry: the sweep removes an empty
room, keeps a populated one, and a last-member leave keeps the key. -/
theorem sweep_deletes_exactly_empty_rooms_check :
    ((getRoomId .battle "x".toList,
        (⟨.battle, "x".toList, {"A"}, 0⟩ : RoomInfo)) ∈
      cleanupEmptyRooms
        [(getRoomId .spot "y".toList, ⟨.spot, "y".toList, ∅, 0⟩),
         (getRoomId .battle "x".toList, ⟨.battle, "x".toList, {"A"}, 0⟩)] ∧
      True) ∧
    ((leaveRoom [(getRoomId .battle "x".toList,
        ⟨.battle, "x".toList, {"A"}, 0⟩)] ⟨"A", [getRoomId .battle "x".toList]⟩
        .battle "x".toList).1).map Prod.fst =
      [(getRoomId .battle "x".toList,
        (⟨.battle, "x".toList, {"A"}, 0⟩ : RoomInfo))].map Prod.fst :=
  ⟨⟨(sweep_deletes_exactly_empty_rooms.1 _ _ _).mpr ⟨by decide, by decide⟩,
    trivial⟩,
   sweep_deletes_exactly_empty_rooms.2.1 _ _ _ _⟩

/-!
## Stats (`getRoomStats`)
-/

theorem ByType.bump_get (b : ByType) (ty t : RoomType) :
    (b.bump ty).get t = b.get t + (if ty = t then 1 else 0) := by
  cases ty <;> cases t <;> simp [ByType.bump, ByType.get]

theorem statsLoop_get (st : Registry) (b : ByType) (m : Nat) (t : RoomType) :
    ((statsLoop st b m).1).get t =
      b.get t + st.countP (fun p => decide (p.2.type = t)) := by
  induction st generalizing b m with
  | nil => simp [statsLoop]
  | cons q rest ih =>
    obtain ⟨k, r⟩ := q
    simp only [statsLoop, ih, ByType.bump_get, List.countP_cons]
    by_cases ht : r.type = t
    · simp [ht]
      omega
    · simp [ht]

theorem statsLoop_members (st : Registry) (b : ByType) (m : Nat) :
    (statsLoop st b m).2 = m + (st.map fun p => p.2.members.card).sum := by
  induction st generalizing b m with
  | nil => simp [statsLoop]
  | cons q rest ih =>
    obtain ⟨k, r⟩ := q
    simp only [statsLoop, ih, List.map_cons, List.sum_cons]
    omega

/-- C10: `getRoomStats` reports `totalRooms` as the number of registry
entries, `byType t` as the number of rooms of type `t` (not their member
counts), and `totalMembers` as the sum of member-set sizes over all
rooms, so a subject in `k` rooms contributes `k`; being a plain function
of the registry, it never mutates registry state. -/
theorem room_stats_correct (st : Registry) :
    (getRoomStats st).totalRooms = st.length ∧
    (∀ t : RoomType, ((getRoomStats st).byType).get t =
      st.countP (fun p => decide (p.2.type = t))) ∧
    (getRoomStats st).totalMembers = (st.map fun p => p.2.members.card).sum := by
  refine ⟨rfl, ?_, ?_⟩
  · intro t
    have h : (getRoomStats st).byType = (statsLoop st ⟨0, 0, 0, 0⟩ 0).1 := rfl
    rw [h, statsLoop_get]
    have hb : (⟨0, 0, 0, 0⟩ : ByType).get t = 0 := by cases t <;> rfl
    omega
  · have h : (getRoomStats st).totalMembers = (statsLoop st ⟨0, 0, 0, 0⟩ 0).2 := rfl
    rw [h, statsLoop_members, Nat.zero_add]

/-!
## C1: the capacity invariant
-/

theorem sizeOk_insert (r : RoomInfo) (x : String)
    (h : atCapacity r.members.card r.type = false) :
    sizeOk { r with members := insert x r.members } := by
  unfold sizeOk
  unfold atCapacity at h
  match hl : ROOM_LIMITS r.type with
  | none => trivial
  | some c =>
    rw [hl] at h
    simp only [ge_iff_le, decide_eq_false_iff_not, not_le] at h
    have := Finset.card_insert_le x r.members
    simp only
    omega

theorem sizeOk_erase (r : RoomInfo) (x : String) (h : sizeOk r) :
    sizeOk { r with members := r.members.erase x } := by
  unfold sizeOk at h ⊢
  match hl : ROOM_LIMITS r.type with
  | none => trivial
  | some c =>
    rw [hl] at h
    have := Finset.card_erase_le (s := r.members) (a := x)
    simp only
    omega

theorem sizeOk_empty (ty : RoomType) (id : Key) (now : Nat) :
    sizeOk (⟨ty, id, ∅, now⟩ : RoomInfo) := by
  unfold sizeOk
  match ROOM_LIMITS ty with
  | none => trivial
  | some c => simp

/-- The registry invariant: every stored room satisfies the capacity
bound and sits at the key built from its own type and id. -/
def RegInv (st : Registry) : Prop :=
  ∀ p ∈ st, sizeOk p.2 ∧ p.1 = getRoomId p.2.type p.2.id

theorem regInv_join (st : Registry) (sess : Session) (ty : RoomType)
    (id : Key) (now : Nat) (h : RegInv st) :
    RegInv (joinRoom st sess ty id now).2.1 := by
  rcases hf : mapFind st (getRoomId ty id) with _ | room
  · by_cases hc : atCapacity 0 ty
    · have hj : (joinRoom st sess ty id now).2.1
          = mapSet st (getRoomId ty id) ⟨ty, id, ∅, now⟩ := by
        simp [joinRoom, getOrCreateRoom, hf, hc]
      rw [hj]
      intro p hp
      rcases mem_mapSet _ _ _ _ hp with hp1 | hp1
      · subst hp1
        exact ⟨sizeOk_empty ty id now, rfl⟩
      · exact h p hp1
    · have hj : (joinRoom st sess ty id now).2.1
          = mapSet (mapSet st (getRoomId ty id) ⟨ty, id, ∅, now⟩)
              (getRoomId ty id) ⟨ty, id, insert sess.odv ∅, now⟩ := by
        simp [joinRoom, getOrCreateRoom, hf, hc]
      rw [hj]
      intro p hp
      rcases mem_mapSet _ _ _ _ hp with hp1 | hp1
      · subst hp1
        refine ⟨?_, rfl⟩
        have : atCapacity (∅ : Finset String).card ty = false := by
          simpa using eq_false_of_ne_true hc
        exact sizeOk_insert ⟨ty, id, ∅, now⟩ sess.odv this
      · rcases mem_mapSet _ _ _ _ hp1 with hp2 | hp2
        · subst hp2
          exact ⟨sizeOk_empty ty id now, rfl⟩
        · exact h p hp2
  · have hmem := mapFind_some_mem st _ room hf
    obtain ⟨hsz, hkey⟩ := h _ hmem
    obtain ⟨hty, hid⟩ := getRoomId_inj room.type ty room.id id hkey.symm
    by_cases hc : atCapacity room.members.card ty
    · have hj : (joinRoom st sess ty id now).2.1 = st := by
        simp [joinRoom, getOrCreateRoom, hf, hc]
      rw [hj]; exact h
    · have hj : (joinRoom st sess ty id now).2.1
          = mapSet st (getRoomId ty id)
              ⟨room.type, room.id, insert sess.odv room.members, room.createdAt⟩ := by
        simp [joinRoom, getOrCreateRoom, hf, hc]
      rw [hj]
      intro p hp
      rcases mem_mapSet _ _ _ _ hp with hp1 | hp1
      · subst hp1
        refine ⟨?_, by simp [hty, hid]⟩
        have hcap : atCapacity room.members.card room.type = false := by
          rw [hty]
          exact eq_false_of_ne_true hc
        exact sizeOk_insert room sess.odv hcap
      · exact h p hp1

theorem regInv_leaveRoomK (st : Registry) (sess : Session) (t i : Key)
    (h : RegInv st) : RegInv (leaveRoomK st sess t i).1 := by
  rcases hf : mapFind st (keyOf t i) with _ | room
  · have hj : (leaveRoomK st sess t i).1 = st := by
      simp [leaveRoomK, hf]
    rw [hj]; exact h
  · have hmem := mapFind_some_mem st _ room hf
    obtain ⟨hsz, hkey⟩ := h _ hmem
    have hj : (leaveRoomK st sess t i).1
        = mapSet st (keyOf t i)
            ⟨room.type, room.id, room.members.erase sess.odv, room.createdAt⟩ := by
      simp [leaveRoomK, hf]
    rw [hj]
    intro p hp
    rcases mem_mapSet _ _ _ _ hp with hp1 | hp1
    · subst hp1
      exact ⟨sizeOk_erase room sess.odv hsz, hkey⟩
    · exact h p hp1

theorem regInv_leaveAllGo (ks : List Key) (st : Registry) (sess : Session)
    (h : RegInv st) : RegInv (leaveAllGo st sess ks).1 := by
  induction ks generalizing st sess with
  | nil => exact h
  | cons k ks ih =>
    simp only [leaveAllGo]
    rcases hp : parseRoomId k with _ | ti
    · exact ih st sess h
    · obtain ⟨t, i⟩ := ti
      exact ih _ _ (regInv_leaveRoomK st sess t i h)

theorem regInv_cleanup (st : Registry) (h : RegInv st) :
    RegInv (cleanupEmptyRooms st) := by
  intro p hp
  obtain ⟨k, r⟩ := p
  exact h _ ((mem_cleanupEmptyRooms st k r).mp hp).1

theorem reach_regInv (st : Registry) (h : Reach st) : RegInv st := by
  induction h with
  | empty => intro p hp; exact absurd hp (List.not_mem_nil p)
  | join st sess ty id now _ ih => exact regInv_join st sess ty id now ih
  | leave st sess ty id _ ih => exact regInv_leaveRoomK st sess (typeChars ty) id ih
  | leaveAll st sess _ ih => exact regInv_leaveAllGo sess.rooms st sess ih
  | sweep st _ ih => exact regInv_cleanup st ih

/-- C1: in every registry state reachable by any sequence of
join/leave/leaveAll/sweep operations, every room's member-set size is
within its per-type capacity (battle=2, game=8, spot=100, global
unbounded); and a join attempt on a room whose member count is at
capacity returns `false` and leaves the registry (hence the room's
member set) and the session's room-key set completely unchanged. -/
theorem room_capacity_invariant :
    (∀ st : Registry, Reach st → ∀ p ∈ st, sizeOk p.2) ∧
    (∀ (st : Registry) (sess : Session) (ty : RoomType) (id : Key)
      (now : Nat) (r : RoomInfo), mapFind st (getRoomId ty id) = some r →
      atCapacity r.members.card ty = true →
      joinRoom st sess ty id now = (false, st, sess)) := by
  constructor
  · intro st h p hp
    exact (reach_regInv st h p hp).1
  · intro st sess ty id now r hf hc
    simp [joinRoom, getOrCreateRoom, hf, hc]

/-- Witness for C1: a freshly joined battle room satisfies the bound,
and a join on a full battle room is rejected without any change. -/
theorem room_capacity_invariant_check :
    sizeOk (⟨.battle, "x".toList, {"A"}, 0⟩ : RoomInfo) ∧
    joinRoom [(getRoomId .battle "x".toList, ⟨.battle, "x".toList, {"A", "B"}, 0⟩)]
        ⟨"C", []⟩ .battle "x".toList 5 =
      (false, [(getRoomId .battle "x".toList, ⟨.battle, "x".toList, {"A", "B"}, 0⟩)],
        ⟨"C", []⟩) :=
  ⟨room_capacity_invariant.1 _
      (Reach.join [] ⟨"A", []⟩ .battle "x".toList 0 Reach.empty)
      (getRoomId .battle "x".toList, ⟨.battle, "x".toList, {"A"}, 0⟩) (by decide),
   room_capacity_invariant.2 _ ⟨"C", []⟩ .battle "x".toList 5
      ⟨.battle, "x".toList, {"A", "B"}, 0⟩ (by decide) (by decide)⟩

/-!
## C7 and C4: the rate limiter
-/

/-- Every rate-limit entry's count is within the ceiling. -/
def RLInv (st : RLState) : Prop :=
  ∀ p ∈ st, p.2.count ≤ MAX_CONNECTIONS_PER_MINUTE

theorem rlInv_check (st : RLState) (ip : String) (now : Nat) (h : RLInv st) :
    RLInv (checkRateLimit st ip now).2 := by
  rcases hf : mapFind st ip with _ | e
  · have hj : (checkRateLimit st ip now).2
        = mapSet st ip ⟨1, now + RATE_LIMIT_WINDOW_MS⟩ := by
      simp [checkRateLimit, hf]
    rw [hj]
    intro p hp
    rcases mem_mapSet _ _ _ _ hp with hp1 | hp1
    · subst hp1
      show (1 : Nat) ≤ MAX_CONNECTIONS_PER_MINUTE
      decide
    · exact h p hp1
  · by_cases h1 : now > e.resetAt
    · have hj : (checkRateLimit st ip now).2
          = mapSet st ip ⟨1, now + RATE_LIMIT_WINDOW_MS⟩ := by
        simp [checkRateLimit, hf, h1]
      rw [hj]
      intro p hp
      rcases mem_mapSet _ _ _ _ hp with hp1 | hp1
      · subst hp1
        show (1 : Nat) ≤ MAX_CONNECTIONS_PER_MINUTE
        decide
      · exact h p hp1
    · by_cases h2 : e.count ≥ MAX_CONNECTIONS_PER_MINUTE
      · have hj : (checkRateLimit st ip now).2 = st := by
          simp [checkRateLimit, hf, h1, h2]
        rw [hj]; exact h
      · have hj : (checkRateLimit st ip now).2
            = mapSet st ip ⟨e.count + 1, e.resetAt⟩ := by
          simp [checkRateLimit, hf, h1, h2]
        rw [hj]
        intro p hp
        rcases mem_mapSet _ _ _ _ hp with hp1 | hp1
        · subst hp1
          simp only [MAX_CONNECTIONS_PER_MINUTE] at h2 ⊢
          omega
        · exact h p hp1

theorem rlInv_cleanup (st : RLState) (now : Nat) (h : RLInv st) :
    RLInv (cleanupRateLimits st now) := by
  intro p hp
  exact h p (List.mem_filter.mp hp).1

theorem rlInv_run (ops : List RLOp) (st : RLState) (h : RLInv st) :
    RLInv (runRL st ops) := by
  induction ops generalizing st with
  | nil => exact h
  | cons op ops ih =>
    cases op with
    | check ip now => exact ih _ (rlInv_check st ip now h)
    | cleanup now => exact ih _ (rlInv_cleanup st now h)

/-- C7: over every sequence of admission attempts and sweeps from the
empty map, every rate-limit entry's count stays at or below the ceiling
of 10; and an attempt that finds the count at or above the ceiling
inside the window is denied with the map left completely unchanged
(no increment). -/
theorem rate_limit_counter_bounded :
    (∀ (ops : List RLOp) (p : String × RLEntry), p ∈ runRL [] ops →
      p.2.count ≤ MAX_CONNECTIONS_PER_MINUTE) ∧
    (∀ (st : RLState) (ip : String) (now : Nat) (e : RLEntry),
      mapFind st ip = some e → ¬ now > e.resetAt →
      e.count ≥ MAX_CONNECTIONS_PER_MINUTE →
      checkRateLimit st ip now = (false, st)) := by
  constructor
  · intro ops p hp
    exact rlInv_run ops [] (fun q hq => absurd hq (List.not_mem_nil q)) p hp
  · intro st ip now e hf h1 h2
    simp [checkRateLimit, hf, h1, h2]

/-- Witness for C7: one attempt yields an in-bound entry, and a
ceiling-count entry inside its window denies without change. -/
theorem rate_limit_counter_bounded_check :
    (("a", (⟨1, 60000⟩ : RLEntry)).2.count ≤ MAX_CONNECTIONS_PER_MINUTE) ∧
    checkRateLimit [("b", ⟨10, 60000⟩)] "b" 0 = (false, [("b", ⟨10, 60000⟩)]) :=
  ⟨rate_limit_counter_bounded.1 [RLOp.check "a" 0] ("a", ⟨1, 60000⟩) (by decide),
   rate_limit_counter_bounded.2 [("b", ⟨10, 60000⟩)] "b" 0 ⟨10, 60000⟩
     (by decide) (by decide) (by decide)⟩

theorem checkRateLimit_found (st : RLState) (ip : String) (e : RLEntry)
    (now : Nat) (hf : mapFind st ip = some e) :
    checkRateLimit st ip now =
      if now > e.resetAt then
        (true, mapSet st ip ⟨1, now + RATE_LIMIT_WINDOW_MS⟩)
      else if e.count ≥ MAX_CONNECTIONS_PER_MINUTE then (false, st)
      else (true, mapSet st ip ⟨e.count + 1, e.resetAt⟩) := by
  simp [checkRateLimit, hf]

/-- The rate-limiter state after `j` successive `checkRateLimit` calls
for one source key at a fixed time, from the empty map. -/
def rlAttempts (ip : String) (now : Nat) : Nat → RLState
  | 0 => []
  | j + 1 => (checkRateLimit (rlAttempts ip now j) ip now).2

theorem rlAttempts_state (ip : String) (now : Nat) :
    ∀ j : Nat, 1 ≤ j → j ≤ 10 →
      rlAttempts ip now j = [(ip, ⟨j, now + RATE_LIMIT_WINDOW_MS⟩)] := by
  intro j h1 h10
  induction j with
  | zero => omega
  | succ j ih =>
    by_cases hj : j = 0
    · subst hj
      simp [rlAttempts, checkRateLimit, mapFind, mapSet]
    · have hst := ih (by omega) (by omega)
      have hnl : ¬ now > now + RATE_LIMIT_WINDOW_MS := by omega
      have hcnt : ¬ j ≥ MAX_CONNECTIONS_PER_MINUTE := by
        simp only [MAX_CONNECTIONS_PER_MINUTE]; omega
      show (checkRateLimit (rlAttempts ip now j) ip now).2 = _
      rw [hst, checkRateLimit_found _ _ ⟨j, now + RATE_LIMIT_WINDOW_MS⟩ _
            (by simp [mapFind]),
          if_neg hnl, if_neg hcnt]
      simp [mapSet]

/-- C4: for every source key, each of the first ten admission attempts
within one window is allowed (in particular the 10th), the 11th attempt
in the same window is denied, and the first attempt after the window's
reset time has passed is allowed again with the entry's count reset
to 1. -/
theorem rate_limit_window_behaviour (ip : String) (now now2 : Nat)
    (hlate : now + RATE_LIMIT_WINDOW_MS < now2) :
    (∀ j : Nat, j ≤ 9 → (checkRateLimit (rlAttempts ip now j) ip now).1 = true) ∧
    (checkRateLimit (rlAttempts ip now 10) ip now).1 = false ∧
    checkRateLimit (rlAttempts ip now 10) ip now2 =
      (true, [(ip, ⟨1, now2 + RATE_LIMIT_WINDOW_MS⟩)]) := by
  refine ⟨?_, ?_, ?_⟩
  · intro j hj
    by_cases hj0 : j = 0
    · subst hj0
      simp [rlAttempts, checkRateLimit, mapFind]
    · have hst := rlAttempts_state ip now j (by omega) (by omega)
      have hnl : ¬ now > now + RATE_LIMIT_WINDOW_MS := by omega
      have hcnt : ¬ j ≥ MAX_CONNECTIONS_PER_MINUTE := by
        simp only [MAX_CONNECTIONS_PER_MINUTE]; omega
      rw [hst, checkRateLimit_found _ _ ⟨j, now + RATE_LIMIT_WINDOW_MS⟩ _
            (by simp [mapFind]),
          if_neg hnl, if_neg hcnt]
  · have hst := rlAttempts_state ip now 10 (by omega) (by omega)
    have hnl : ¬ now > now + RATE_LIMIT_WINDOW_MS := by omega
    have hcnt : (10 : Nat) ≥ MAX_CONNECTIONS_PER_MINUTE := by decide
    rw [hst, checkRateLimit_found _ _ ⟨10, now + RATE_LIMIT_WINDOW_MS⟩ _
          (by simp [mapFind]),
        if_neg hnl, if_pos hcnt]
  · have hst := rlAttempts_state ip now 10 (by omega) (by omega)
    have hgt : now2 > now + RATE_LIMIT_WINDOW_MS := hlate
    rw [hst, checkRateLimit_found _ _ ⟨10, now + RATE_LIMIT_WINDOW_MS⟩ _
          (by simp [mapFind]),
        if_pos hgt]
    simp [mapSet]

/-- Witness for C4 at a concrete key, window start 0 and late time
60001. -/
theorem rate_limit_window_behaviour_check :
    (checkRateLimit (rlAttempts "a" 0 9) "a" 0).1 = true ∧
    (checkRateLimit (rlAttempts "a" 0 10) "a" 0).1 = false ∧
    checkRateLimit (rlAttempts "a" 0 10) "a" 60001 =
      (true, [("a", ⟨1, 60001 + RATE_LIMIT_WINDOW_MS⟩)]) :=
  ⟨(rate_limit_window_behaviour "a" 0 60001 (by decide)).1 9 (by decide),
   (rate_limit_window_behaviour "a" 0 60001 (by decide)).2.1,
   (rate_limit_window_behaviour "a" 0 60001 (by decide)).2.2⟩

/-!
## C6: the authentication middleware
-/

/-- C6: a connection that passes rate limiting, carries a present
non-empty string token that verifies to a decoded credential, and
resolves to an active user record yields a populated session whose
subject id (`odv`/`userId`) is the resolved user's id and whose roles
contain `"admin"` exactly when the credential carries the admin claim;
the same credential for an inactive user record yields the
`account_inactive` rejection and no session. -/
theorem auth_middleware_active_inactive
    (rl : RLState) (now : Nat) (verify : String → Option Decoded)
    (findUser : String → Option UserRecord) (addr t : String)
    (d : Decoded) (u : UserRecord)
    (hrl : (checkRateLimit rl addr now).1 = true)
    (ht : t ≠ "")
    (hv : verify t = some d)
    (hu : findUser d.uid = some u) :
    (u.isActive = true →
      (socketAuthMiddleware rl now verify findUser
          ⟨addr, some ⟨some (.str t)⟩⟩).1 =
        .ok ⟨u.id, u.id, d.uid, if d.admin then ["admin"] else [], now, []⟩ ∧
      ("admin" ∈ (if d.admin then ["admin"] else ([] : List String)) ↔
        d.admin = true)) ∧
    (u.isActive = false →
      (socketAuthMiddleware rl now verify findUser
          ⟨addr, some ⟨some (.str t)⟩⟩).1 = .err "account_inactive") := by
  constructor
  · intro hact
    constructor
    · simp [socketAuthMiddleware, hrl, ht, hv, hu, hact]
    · by_cases hd : d.admin <;> simp [hd]
  · intro hact
    simp [socketAuthMiddleware, hrl, ht, hv, hu, hact]

/-- Witness for C6 with concrete capabilities: an active admin user gets
a session; the same token with the user marked inactive is rejected. -/
theorem auth_middleware_active_inactive_check :
    (socketAuthMiddleware [] 0
        (fun t => if t = "tok" then some ⟨"u1", true⟩ else none)
        (fun u => if u = "u1" then some ⟨"user-1", true⟩ else none)
        ⟨"1.2.3.4", some ⟨some (.str "tok")⟩⟩).1 =
      .ok ⟨"user-1", "user-1", "u1", ["admin"], 0, []⟩ ∧
    (socketAuthMiddleware [] 0
        (fun t => if t = "tok" then some ⟨"u1", true⟩ else none)
        (fun u => if u = "u1" then some ⟨"user-1", false⟩ else none)
        ⟨"1.2.3.4", some ⟨some (.str "tok")⟩⟩).1 =
      .err "account_inactive" :=
  ⟨((auth_middleware_active_inactive [] 0
      (fun t => if t = "tok" then some ⟨"u1", true⟩ else none)
      (fun u => if u = "u1" then some ⟨"user-1", true⟩ else none)
      "1.2.3.4" "tok" ⟨"u1", true⟩ ⟨"user-1", true⟩
      (by decide) (by decide) (by decide) (by decide)).1 rfl).1,
   (auth_middleware_active_inactive [] 0
      (fun t => if t = "tok" then some ⟨"u1", true⟩ else none)
      (fun u => if u = "u1" then some ⟨"user-1", false⟩ else none)
      "1.2.3.4" "tok" ⟨"u1", true⟩ ⟨"user-1", false⟩
      (by decide) (by decide) (by decide) (by decide)).2 rfl⟩

/-!
## C3 (corrected): join is not idempotent at capacity
-/

/-- Counterexample to C3 as stated: in a battle room (capacity 2)
holding A and B, subject B's immediately repeated join with the
identical (session, type, id) returns `true` the first time and `false`
the second time (the capacity check fires before the membership check),
so "both calls return joined=true" fails; the member set is unchanged. -/
theorem join_rejoin_full_room_not_idempotent :
    ((joinRoom (joinRoom [] ⟨"A", []⟩ .battle "x".toList 0).2.1 ⟨"B", []⟩
        .battle "x".toList 0).1 = true) ∧
    ((joinRoom
        (joinRoom (joinRoom [] ⟨"A", []⟩ .battle "x".toList 0).2.1 ⟨"B", []⟩
          .battle "x".toList 0).2.1
        (joinRoom (joinRoom [] ⟨"A", []⟩ .battle "x".toList 0).2.1 ⟨"B", []⟩
          .battle "x".toList 0).2.2
        .battle "x".toList 0).1 = false) ∧
    ((joinRoom
        (joinRoom (joinRoom [] ⟨"A", []⟩ .battle "x".toList 0).2.1 ⟨"B", []⟩
          .battle "x".toList 0).2.1
        (joinRoom (joinRoom [] ⟨"A", []⟩ .battle "x".toList 0).2.1 ⟨"B", []⟩
          .battle "x".toList 0).2.2
        .battle "x".toList 0).2.1 =
      (joinRoom (joinRoom [] ⟨"A", []⟩ .battle "x".toList 0).2.1 ⟨"B", []⟩
        .battle "x".toList 0).2.1) := by
  decide

theorem join_again_found (st1 : Registry) (s1 : Session) (ty : RoomType)
    (id : Key) (now : Nat) (r1 : RoomInfo)
    (hf1 : mapFind st1 (getRoomId ty id) = some r1)
    (hins : insert s1.odv r1.members = r1.members) :
    (memCard (joinRoom st1 s1 ty id now).2.1 (getRoomId ty id) =
      memCard st1 (getRoomId ty id)) ∧
    ((joinRoom st1 s1 ty id now).1 =
      !(atCapacity (memCard st1 (getRoomId ty id)) ty)) := by
  have hm1 : memCard st1 (getRoomId ty id) = r1.members.card := by
    simp [memCard, hf1]
  by_cases hc : atCapacity r1.members.card ty
  · have hj : joinRoom st1 s1 ty id now = (false, st1, s1) := by
      simp [joinRoom, getOrCreateRoom, hf1, hc]
    rw [hj, hm1, hc]
    exact ⟨rfl, rfl⟩
  · have hj : joinRoom st1 s1 ty id now =
        (true, mapSet st1 (getRoomId ty id)
          ⟨r1.type, r1.id, insert s1.odv r1.members, r1.createdAt⟩,
         { s1 with rooms := sessAdd s1.rooms (getRoomId ty id) }) := by
      simp [joinRoom, getOrCreateRoom, hf1, hc]
    rw [hj, hm1]
    constructor
    · simp [memCard, mapFind_mapSet_self, hins]
    · simp [eq_false_of_ne_true hc]

/-- C3 (amended): an immediately repeated join with the identical
(session, type, id) never changes the room's member count; the second
call returns `true` exactly when the room is strictly below capacity
after the first call — when the first call left the room at capacity,
the second call returns `false` (a `room_full` rejection) even though
the subject is already a member. -/
theorem join_twice_amended (st : Registry) (sess : Session) (ty : RoomType)
    (id : Key) (now : Nat)
    (h1 : (joinRoom st sess ty id now).1 = true) :
    (memCard (joinRoom (joinRoom st sess ty id now).2.1
        (joinRoom st sess ty id now).2.2 ty id now).2.1 (getRoomId ty id) =
      memCard (joinRoom st sess ty id now).2.1 (getRoomId ty id)) ∧
    ((joinRoom (joinRoom st sess ty id now).2.1
        (joinRoom st sess ty id now).2.2 ty id now).1 =
      !(atCapacity
          (memCard (joinRoom st sess ty id now).2.1 (getRoomId ty id)) ty)) := by
  rcases hf : mapFind st (getRoomId ty id) with _ | room
  · by_cases hc : atCapacity 0 ty
    · have : (joinRoom st sess ty id now).1 = false := by
        simp [joinRoom, getOrCreateRoom, hf, hc]
      rw [this] at h1
      exact absurd h1 (by simp)
    · have hj : (joinRoom st sess ty id now).2.1
          = mapSet (mapSet st (getRoomId ty id) ⟨ty, id, ∅, now⟩)
              (getRoomId ty id) ⟨ty, id, insert sess.odv ∅, now⟩ := by
        simp [joinRoom, getOrCreateRoom, hf, hc]
      have hodv : (joinRoom st sess ty id now).2.2.odv = sess.odv := by
        simp [joinRoom, getOrCreateRoom, hf, hc]
      have hf1 : mapFind (joinRoom st sess ty id now).2.1 (getRoomId ty id)
          = some ⟨ty, id, insert sess.odv ∅, now⟩ := by
        rw [hj]
        exact mapFind_mapSet_self _ _ _
      refine join_again_found _ _ ty id now _ hf1 ?_
      rw [hodv]
      exact Finset.insert_idem sess.odv ∅
  · by_cases hc : atCapacity room.members.card ty
    · have : (joinRoom st sess ty id now).1 = false := by
        simp [joinRoom, getOrCreateRoom, hf, hc]
      rw [this] at h1
      exact absurd h1 (by simp)
    · have hj : (joinRoom st sess ty id now).2.1
          = mapSet st (getRoomId ty id)
              ⟨room.type, room.id, insert sess.odv room.members,
                room.createdAt⟩ := by
        simp [joinRoom, getOrCreateRoom, hf, hc]
      have hodv : (joinRoom st sess ty id now).2.2.odv = sess.odv := by
        simp [joinRoom, getOrCreateRoom, hf, hc]
      have hf1 : mapFind (joinRoom st sess ty id now).2.1 (getRoomId ty id)
          = some ⟨room.type, room.id, insert sess.odv room.members,
              room.createdAt⟩ := by
        rw [hj]
        exact mapFind_mapSet_self _ _ _
      refine join_again_found _ _ ty id now _ hf1 ?_
      rw [hodv]
      exact Finset.insert_idem sess.odv room.members

/-- Witness for the amended C3: a single subject joining an empty battle
room twice keeps the member count at 1 and the second call succeeds. -/
theorem join_twice_amended_check :
    (memCard (joinRoom (joinRoom [] ⟨"A", []⟩ .battle "x".toList 0).2.1
        (joinRoom [] ⟨"A", []⟩ .battle "x".toList 0).2.2 .battle
        "x".toList 0).2.1 (getRoomId .battle "x".toList) =
      memCard (joinRoom [] ⟨"A", []⟩ .battle "x".toList 0).2.1
        (getRoomId .battle "x".toList)) ∧
    ((joinRoom (joinRoom [] ⟨"A", []⟩ .battle "x".toList 0).2.1
        (joinRoom [] ⟨"A", []⟩ .battle "x".toList 0).2.2 .battle
        "x".toList 0).1 =
      !(atCapacity (memCard (joinRoom [] ⟨"A", []⟩ .battle "x".toList 0).2.1
          (getRoomId .battle "x".toList)) .battle)) :=
  join_twice_amended [] ⟨"A", []⟩ .battle "x".toList 0 (by decide)

/-!
## C2 (corrected): leaveAll and unparseable keys
-/

theorem mapFind_none_forall {α β : Type} [DecidableEq α] (st : List (α × β))
    (a : α) (h : mapFind st a = none) : ∀ p ∈ st, p.1 ≠ a := by
  induction st with
  | nil => intro p hp; exact absurd hp (List.not_mem_nil p)
  | cons q rest ih =>
    obtain ⟨k, v⟩ := q
    by_cases hk : k = a
    · subst hk
      simp [mapFind] at h
    · simp only [mapFind, if_neg hk] at h
      intro p hp
      rcases List.mem_cons.mp hp with hp1 | hp1
      · exact hp1 ▸ hk
      · exact ih h p hp1

/-- Counterexample to C2 as stated: joining a `battle` room with the
empty id succeeds, but its key `"battle:"` fails to parse, so `leaveAll`
skips it — afterwards the session's room-key set still holds the key and
the subject is still a member of the room. -/
theorem leaveAll_skips_unparsed_key :
    ((joinRoom [] ⟨"A", []⟩ .battle [] 0).1 = true) ∧
    ((leaveAllRooms (joinRoom [] ⟨"A", []⟩ .battle [] 0).2.1
        (joinRoom [] ⟨"A", []⟩ .battle [] 0).2.2).2.rooms =
      [getRoomId .battle []]) ∧
    (memCard (leaveAllRooms (joinRoom [] ⟨"A", []⟩ .battle [] 0).2.1
        (joinRoom [] ⟨"A", []⟩ .battle [] 0).2.2).1 (getRoomId .battle []) = 1) := by
  decide

theorem leaveAllGo_spec (ks : List Key) (st : Registry) (sess : Session)
    (hks : sess.rooms = ks)
    (hparse : ∀ k ∈ ks, (parseRoomId k).isSome)
    (hnd : (st.map Prod.fst).Nodup)
    (hinv : ∀ p ∈ st, sess.odv ∈ p.2.members → p.1 ∈ sess.rooms) :
    (leaveAllGo st sess ks).2.rooms = [] ∧
    ∀ p ∈ (leaveAllGo st sess ks).1, sess.odv ∉ p.2.members := by
  induction ks generalizing st sess with
  | nil =>
    refine ⟨hks, ?_⟩
    intro p hp hmem
    have := hinv p hp hmem
    rw [hks] at this
    exact absurd this (List.not_mem_nil _)
  | cons k ks ih =>
    have hk : (parseRoomId k).isSome := hparse k (List.mem_cons_self k ks)
    obtain ⟨⟨t, i⟩, hp⟩ := Option.isSome_iff_exists.mp hk
    have hkey : keyOf t i = k := parseRoomId_reconstruct k t i hp
    have hstep : leaveAllGo st sess (k :: ks)
        = leaveAllGo (leaveRoomK st sess t i).1 (leaveRoomK st sess t i).2 ks := by
      simp [leaveAllGo, hp]
    have hodv : (leaveRoomK st sess t i).2.odv = sess.odv := rfl
    have hrooms : (leaveRoomK st sess t i).2.rooms = ks := by
      show sessDel sess.rooms (keyOf t i) = ks
      rw [hkey, hks]
      exact List.erase_cons_head k ks
    have hnd' : (((leaveRoomK st sess t i).1).map Prod.fst).Nodup := by
      rw [leaveRoomK_keys]; exact hnd
    have hinv' : ∀ p ∈ (leaveRoomK st sess t i).1,
        (leaveRoomK st sess t i).2.odv ∈ p.2.members →
        p.1 ∈ (leaveRoomK st sess t i).2.rooms := by
      rw [hodv, hrooms]
      rcases hf : mapFind st (keyOf t i) with _ | room
      · have hst : (leaveRoomK st sess t i).1 = st := by
          simp [leaveRoomK, hf]
        rw [hst]
        intro p hpm hmem
        have h1 := hinv p hpm hmem
        rw [hks] at h1
        rcases List.mem_cons.mp h1 with h2 | h2
        · exact absurd (h2.trans hkey.symm) (mapFind_none_forall st _ hf p hpm)
        · exact h2
      · have hst : (leaveRoomK st sess t i).1
            = mapSet st (keyOf t i)
                ⟨room.type, room.id, room.members.erase sess.odv,
                  room.createdAt⟩ := by
          simp [leaveRoomK, hf]
        rw [hst]
        intro p hpm hmem
        rcases mem_mapSet_nodup st _ _ p hnd hpm with h2 | h2
        · subst h2
          exact absurd hmem (Finset.not_mem_erase sess.odv room.members)
        · have h1 := hinv p h2.1 hmem
          rw [hks] at h1
          rcases List.mem_cons.mp h1 with h3 | h3
          · exact absurd (h3.trans hkey.symm) h2.2
          · exact h3
    have hres := ih (leaveRoomK st sess t i).1 (leaveRoomK st sess t i).2
      hrooms (fun k' hk' => hparse k' (List.mem_cons_of_mem k hk')) hnd' hinv'
    rw [hstep]
    exact ⟨hres.1, fun p hpm => hodv ▸ hres.2 p hpm⟩

/-- C2 (amended): for a session all of whose room keys parse (non-empty
type and id segments), with distinct registry keys, and whose subject is
a member only of rooms whose key is in the session's room-key set (the
spec's session–registry consistency invariant, which tolerates keys
whose room was already swept), `leaveAllRooms` empties the session's
room-key set and removes the subject from every room.  A joined key with
an empty id segment fails to parse, is skipped, and remains (see the
counterexample). -/
theorem leaveAll_clears_session_amended (st : Registry) (sess : Session)
    (hparse : ∀ k ∈ sess.rooms, (parseRoomId k).isSome)
    (hnd : (st.map Prod.fst).Nodup)
    (hinv : ∀ p ∈ st, sess.odv ∈ p.2.members → p.1 ∈ sess.rooms) :
    (leaveAllRooms st sess).2.rooms = [] ∧
    ∀ p ∈ (leaveAllRooms st sess).1, sess.odv ∉ p.2.members :=
  leaveAllGo_spec sess.rooms st sess rfl hparse hnd hinv

/-- Witness for the amended C2: one joined battle room, fully left; the
session's key set ends empty and the subject is out of the room. -/
theorem leaveAll_clears_session_amended_check :
    ((leaveAllRooms
        [(getRoomId .battle "x".toList, ⟨.battle, "x".toList, {"A"}, 0⟩)]
        ⟨"A", [getRoomId .battle "x".toList]⟩).2.rooms = []) ∧
    "A" ∉ (⟨.battle, "x".toList, (∅ : Finset String), 0⟩ : RoomInfo).members :=
  have h := leaveAll_clears_session_amended
    [(getRoomId .battle "x".toList, ⟨.battle, "x".toList, {"A"}, 0⟩)]
    ⟨"A", [getRoomId .battle "x".toList]⟩ (by decide) (by decide) (by decide)
  ⟨h.1, h.2 (getRoomId .battle "x".toList, ⟨.battle, "x".toList, ∅, 0⟩)
    (by decide)⟩

end SkateHubba
